import Mathlib

/-
Verification of the font_compress repository (font_compress.py).
Pixel values are bytes modelled as Nat (always in [0,255] where relevant).
Lists of Nat model Python lists / bytearrays of bytes.
-/

set_option maxRecDepth 100000

namespace FontCompress

/-! ## RLE codec (rle_compress, lines 63-82) -/

/-- State machine for the two nested while loops of rle_compress.
`none` is the outer loop at the top (next byte is a fresh token);
`some count` means a 0x00 has just been emitted and the inner loop has
consumed `count` zero bytes of the current run so far (count starts at 1
after the first zero is consumed, the count byte has not been emitted yet).
The inner loop runs while the next byte is 0 and count < 255; when it exits,
the count byte is appended and the outer loop resumes at the current byte. -/
def rleGo : List Nat → Option Nat → List Nat
  | [], none => []
  | [], some count => [count]
  | b :: rest, none =>
      if b = 0 then 0 :: rleGo rest (some 1) else b :: rleGo rest none
  | b :: rest, some count =>
      if b = 0 then
        if count < 255 then rleGo rest (some (count + 1))
        else count :: 0 :: rleGo rest (some 1)
      else count :: b :: rleGo rest none

/-- rle_compress (font_compress.py lines 63-82): each 0x00 byte is followed
by a count byte for the run of consecutive zeros (split at 255); any other
byte is copied literally. -/
def rle_compress (data : List Nat) : List Nat := rleGo data none

/-! ## Byte-level RLE decoding loop of decompress_and_verify (lines 149-163) -/

/-- The byte-level decoding while-loop of decompress_and_verify: on a 0x00,
if a next byte exists it is read as a run count (that many 0x00 are emitted);
a 0x00 that is the last byte of the stream emits a single 0x00; any nonzero
byte is emitted as itself. -/
def rleDecodeLoop : List Nat → List Nat
  | [] => []
  | 0 :: [] => [0]
  | 0 :: c :: rest => List.replicate c 0 ++ rleDecodeLoop rest
  | b :: rest => b :: rleDecodeLoop rest

theorem rleDecodeLoop_pos (b : Nat) (rest : List Nat) (hb : b ≠ 0) :
    rleDecodeLoop (b :: rest) = b :: rleDecodeLoop rest := by
  cases b with
  | zero => exact absurd rfl hb
  | succ n => rfl

/-- Joint induction: decoding the encoder output from the outer state gives
back the input; decoding `0x00` followed by the encoder output from inner
state `count` gives `count` zeros followed by the input. -/
theorem rleGo_decode (l : List Nat) :
    rleDecodeLoop (rleGo l none) = l ∧
      ∀ count, 1 ≤ count → count ≤ 255 →
        rleDecodeLoop (0 :: rleGo l (some count)) = List.replicate count 0 ++ l := by
  induction l with
  | nil =>
    constructor
    · rfl
    · intro count _ _
      show rleDecodeLoop (0 :: [count]) = List.replicate count 0 ++ []
      simp [rleDecodeLoop]
  | cons b rest ih =>
    constructor
    · by_cases hb : b = 0
      · subst hb
        show rleDecodeLoop (rleGo (0 :: rest) none) = 0 :: rest
        rw [show rleGo (0 :: rest) none = 0 :: rleGo rest (some 1) from rfl]
        rw [ih.2 1 (by omega) (by omega)]
        simp
      · rw [show rleGo (b :: rest) none = b :: rleGo rest none by
              simp [rleGo, hb]]
        rw [rleDecodeLoop_pos b _ hb, ih.1]
    · intro count h1 h255
      by_cases hb : b = 0
      · subst hb
        by_cases hc : count < 255
        · rw [show rleGo (0 :: rest) (some count) = rleGo rest (some (count + 1)) by
                simp [rleGo, hc]]
          rw [ih.2 (count + 1) (by omega) (by omega)]
          rw [List.replicate_succ' count 0, List.append_assoc]
          rfl
        · have hc255 : count = 255 := by omega
          rw [show rleGo (0 :: rest) (some count)
                = count :: 0 :: rleGo rest (some 1) by simp [rleGo, hc]]
          rw [show rleDecodeLoop (0 :: count :: 0 :: rleGo rest (some 1))
                = List.replicate count 0 ++ rleDecodeLoop (0 :: rleGo rest (some 1))
              from rfl]
          rw [ih.2 1 (by omega) (by omega)]
          simp
      · rw [show rleGo (b :: rest) (some count)
              = count :: b :: rleGo rest none by simp [rleGo, hb]]
        rw [show rleDecodeLoop (0 :: count :: b :: rleGo rest none)
              = List.replicate count 0 ++ rleDecodeLoop (b :: rleGo rest none)
            from rfl]
        rw [rleDecodeLoop_pos b _ hb, ih.1]

theorem rleDecode_rleCompress (B : List Nat) :
    rleDecodeLoop (rle_compress B) = B :=
  (rleGo_decode B).1

/-- C1: for every byte sequence B, byte-level decoding of rle_compress B,
truncated to the expected length len B, reproduces B exactly. -/
theorem claim1_rle_roundtrip (B : List Nat) :
    (rleDecodeLoop (rle_compress B)).take B.length = B := by
  rw [rleDecode_rleCompress, List.take_length]

/-! ## Structural invariant of the encoded stream (claim C4) -/

/-- The structural alternation invariant of an RLE-encoded stream: each 0x00
is immediately followed by a count byte in [1,255]; any nonzero byte stands
alone as a literal. -/
inductive RLEStream : List Nat → Prop
  | nil : RLEStream []
  | lit {b : Nat} {rest : List Nat} : b ≠ 0 → RLEStream rest → RLEStream (b :: rest)
  | run {c : Nat} {rest : List Nat} :
      1 ≤ c → c ≤ 255 → RLEStream rest → RLEStream (0 :: c :: rest)

theorem rleGo_stream (l : List Nat) :
    RLEStream (rleGo l none) ∧
      ∀ count, 1 ≤ count → count ≤ 255 → RLEStream (0 :: rleGo l (some count)) := by
  induction l with
  | nil =>
    constructor
    · exact RLEStream.nil
    · intro count h1 h255
      exact RLEStream.run h1 h255 RLEStream.nil
  | cons b rest ih =>
    constructor
    · by_cases hb : b = 0
      · subst hb
        show RLEStream (0 :: rleGo rest (some 1))
        exact ih.2 1 (by omega) (by omega)
      · rw [show rleGo (b :: rest) none = b :: rleGo rest none by simp [rleGo, hb]]
        exact RLEStream.lit hb ih.1
    · intro count h1 h255
      by_cases hb : b = 0
      · subst hb
        by_cases hc : count < 255
        · rw [show rleGo (0 :: rest) (some count) = rleGo rest (some (count + 1)) by
                simp [rleGo, hc]]
          exact ih.2 (count + 1) (by omega) (by omega)
        · rw [show rleGo (0 :: rest) (some count)
                = count :: 0 :: rleGo rest (some 1) by simp [rleGo, hc]]
          exact RLEStream.run h1 h255 (ih.2 1 (by omega) (by omega))
      · rw [show rleGo (b :: rest) (some count)
              = count :: b :: rleGo rest none by simp [rleGo, hb]]
        exact RLEStream.run h1 h255 (RLEStream.lit hb ih.1)

theorem rleGo_zero_free (l : List Nat) (h : ∀ b ∈ l, b ≠ 0) :
    rleGo l none = l := by
  induction l with
  | nil => rfl
  | cons b rest ih =>
    have hb : b ≠ 0 := h b (List.mem_cons_self b rest)
    rw [show rleGo (b :: rest) none = b :: rleGo rest none by simp [rleGo, hb]]
    rw [ih (fun x hx => h x (List.mem_cons_of_mem b hx))]

/-- C4: the output of rle_compress always satisfies the structural
alternation invariant (every 0x00 in an encoding position is immediately
followed by a count byte in [1,255], nonzero bytes stand alone), and an
input containing no 0x00 bytes encodes to itself unchanged. -/
theorem claim4_rle_structure (d : List Nat) :
    RLEStream (rle_compress d) ∧ ((∀ b ∈ d, b ≠ 0) → rle_compress d = d) :=
  ⟨(rleGo_stream d).1, fun h => rleGo_zero_free d h⟩

/-- Witness for C4 at the concrete zero-free input [1, 2, 3]. -/
theorem claim4_rle_structure_witness : rle_compress [1, 2, 3] = [1, 2, 3] :=
  (claim4_rle_structure [1, 2, 3]).2 (by decide)

/-- C5: a run of exactly 255 zero bytes encodes as [0x00, 255], and a run of
exactly 256 zero bytes encodes as [0x00, 255, 0x00, 1]. -/
theorem claim5_rle_run_split :
    rle_compress (List.replicate 255 0) = [0, 255] ∧
      rle_compress (List.replicate 256 0) = [0, 255, 0, 1] := by
  constructor <;> decide

/-! ## Bit unpacking stage of decompress_and_verify (lines 165-171) -/

/-- Unpacks one byte MSB-first into eight pixels: pixel `bit` is 0xFF when
`byte & (1 << (7 - bit))` is nonzero, else 0x00 (lines 167-169). -/
def unpackByte (byte : Nat) : List Nat :=
  (List.range 8).map fun bit => if byte &&& (1 <<< (7 - bit)) ≠ 0 then 255 else 0

/-- The unpacking for-loop over all decoded bytes (lines 166-169). -/
def unpackAll : List Nat → List Nat
  | [] => []
  | b :: rest => unpackByte b ++ unpackAll rest

/-- decompress_and_verify (lines 149-171): byte-level RLE decode, then
unpack each byte MSB-first into eight pixels, then truncate to
original_size. -/
def decompress_and_verify (compressed : List Nat) (original_size : Nat) : List Nat :=
  (unpackAll (rleDecodeLoop compressed)).take original_size

theorem unpackAll_mem (l : List Nat) (v : Nat) (hv : v ∈ unpackAll l) :
    v = 0 ∨ v = 255 := by
  induction l with
  | nil => simp [unpackAll] at hv
  | cons b rest ih =>
    rw [unpackAll, List.mem_append] at hv
    rcases hv with h | h
    · rw [unpackByte, List.mem_map] at h
      obtain ⟨bit, -, hbit⟩ := h
      by_cases hb : b &&& (1 <<< (7 - bit)) ≠ 0 <;> simp [hb] at hbit <;> omega
    · exact ih h

/-- C10: the decoder is total on arbitrary byte streams (it is a terminating
function): a 0x00 whose count byte is 0 contributes no decoded bytes, a 0x00
that ends the stream contributes a single 0x00, the result never exceeds
original_size, and every decoded pixel is 0x00 or 0xFF. -/
theorem claim10_decoder_total :
    (∀ rest : List Nat, rleDecodeLoop (0 :: 0 :: rest) = rleDecodeLoop rest) ∧
      rleDecodeLoop [0] = [0] ∧
      (∀ (c : List Nat) (n : Nat), (decompress_and_verify c n).length ≤ n) ∧
      (∀ (c : List Nat) (n v : Nat), v ∈ decompress_and_verify c n → v = 0 ∨ v = 255) := by
  refine ⟨fun rest => by simp [rleDecodeLoop], rfl, ?_, ?_⟩
  · intro c n
    exact (unpackAll (rleDecodeLoop c)).length_take_le n
  · intro c n v hv
    exact unpackAll_mem _ v ((unpackAll (rleDecodeLoop c)).take_subset n hv)

/-- Witness for C10 at the concrete stream [3] with expected length 8:
pixel value 255 occurs in the decoded output and is one of {0, 255}. -/
theorem claim10_decoder_total_witness : (255 : Nat) = 0 ∨ (255 : Nat) = 255 :=
  claim10_decoder_total.2.2.2 [3] 8 255 (by decide)

/-! ## Bit packer: compress_to_bits (lines 48-61) -/

/-- The inner j-loop of compress_to_bits: byte = (byte << 1) | bit over the
eight pixels of one group, where the bit is 1 exactly when the pixel is
0xFF. -/
def packByte (chunk : List Nat) : Nat :=
  chunk.foldl (fun byte px => byte <<< 1 ||| (if px = 255 then 1 else 0)) 0

/-- The outer i-loop of compress_to_bits: one packed byte per group of 8
consecutive pixels. -/
def packLoop : List Nat → List Nat
  | a :: b :: c :: d :: e :: f :: g :: h :: rest =>
      packByte [a, b, c, d, e, f, g, h] :: packLoop rest
  | _ => []

/-- compress_to_bits (lines 48-61): asserts that the pixel count is
divisible by 8 (modelled as `none` on violation), then packs each group of
8 pixels into one byte MSB-first. -/
def compress_to_bits (pixels : List Nat) : Option (List Nat) :=
  if pixels.length % 8 = 0 then some (packLoop pixels) else none

theorem unpackByte_packByte (a b c d e f g h : Nat)
    (ha : a = 0 ∨ a = 255) (hb : b = 0 ∨ b = 255) (hc : c = 0 ∨ c = 255)
    (hd : d = 0 ∨ d = 255) (he : e = 0 ∨ e = 255) (hf : f = 0 ∨ f = 255)
    (hg : g = 0 ∨ g = 255) (hh : h = 0 ∨ h = 255) :
    unpackByte (packByte [a, b, c, d, e, f, g, h]) = [a, b, c, d, e, f, g, h] := by
  rcases ha with rfl | rfl <;> rcases hb with rfl | rfl <;>
    rcases hc with rfl | rfl <;> rcases hd with rfl | rfl <;>
    rcases he with rfl | rfl <;> rcases hf with rfl | rfl <;>
    rcases hg with rfl | rfl <;> rcases hh with rfl | rfl <;> decide

theorem unpackAll_packLoop :
    ∀ p : List Nat, p.length % 8 = 0 → (∀ v ∈ p, v = 0 ∨ v = 255) →
      unpackAll (packLoop p) = p
  | [], _, _ => rfl
  | [a], h8, _ => by simp at h8
  | [a, b], h8, _ => by simp at h8
  | [a, b, c], h8, _ => by simp at h8
  | [a, b, c, d], h8, _ => by simp at h8
  | [a, b, c, d, e], h8, _ => by simp at h8
  | [a, b, c, d, e, f], h8, _ => by simp at h8
  | [a, b, c, d, e, f, g], h8, _ => by simp at h8
  | a :: b :: c :: d :: e :: f :: g :: h :: rest, h8, hv => by
    have h8' : rest.length % 8 = 0 := by
      simp [List.length_cons] at h8
      omega
    have hv' : ∀ v ∈ rest, v = 0 ∨ v = 255 := by
      intro v hvm
      exact hv v (by simp [hvm])
    rw [packLoop, unpackAll, unpackAll_packLoop rest h8' hv']
    rw [unpackByte_packByte a b c d e f g h
          (hv a (by simp)) (hv b (by simp)) (hv c (by simp)) (hv d (by simp))
          (hv e (by simp)) (hv f (by simp)) (hv g (by simp)) (hv h (by simp))]
    rfl

/-- C2: for every pixel sequence over {0x00, 0xFF} of length divisible by 8,
RLE-decoding the RLE-compressed packed stream, unpacking MSB-first and
truncating to the pixel count reproduces the pixels exactly. -/
theorem claim2_full_roundtrip (p : List Nat)
    (h8 : p.length % 8 = 0) (hv : ∀ v ∈ p, v = 0 ∨ v = 255)
    (packed : List Nat) (hp : compress_to_bits p = some packed) :
    decompress_and_verify (rle_compress packed) p.length = p := by
  have hpacked : packed = packLoop p := by
    rw [compress_to_bits, if_pos h8] at hp
    exact (Option.some.injEq _ _ ▸ hp).symm
  subst hpacked
  rw [decompress_and_verify, rleDecode_rleCompress,
      unpackAll_packLoop p h8 hv, List.take_length]

/-- Witness for C2 at the concrete all-set pixel buffer of eight 0xFF. -/
theorem claim2_full_roundtrip_witness :
    decompress_and_verify (rle_compress [255]) (List.replicate 8 255).length
      = List.replicate 8 255 :=
  claim2_full_roundtrip (List.replicate 8 255) (by decide) (by decide) [255] (by decide)

/-! ## Bit-level specification of the packer (claim C3) -/

/-- The bit contributed by one pixel: 1 exactly when the pixel is 0xFF. -/
def bitOf (px : Nat) : Nat := if px = 255 then 1 else 0

theorem bitOf_le_one (px : Nat) : bitOf px ≤ 1 := by
  unfold bitOf; split <;> omega

theorem packByte_sum (a b c d e f g h : Nat) :
    packByte [a, b, c, d, e, f, g, h] =
      128 * bitOf a + 64 * bitOf b + 32 * bitOf c + 16 * bitOf d +
        8 * bitOf e + 4 * bitOf f + 2 * bitOf g + bitOf h := by
  unfold bitOf
  by_cases ha : a = 255 <;> by_cases hb : b = 255 <;> by_cases hc : c = 255 <;>
    by_cases hd : d = 255 <;> by_cases he : e = 255 <;> by_cases hf : f = 255 <;>
    by_cases hg : g = 255 <;> by_cases hh : h = 255 <;>
    simp [packByte, List.foldl, ha, hb, hc, hd, he, hf, hg, hh]

theorem packByte_div (a b c d e f g h j : Nat) (hj : j < 8) :
    packByte [a, b, c, d, e, f, g, h] / 2 ^ (7 - j) % 2
      = bitOf ([a, b, c, d, e, f, g, h].getD j 0) := by
  have Ba := bitOf_le_one a
  have Bb := bitOf_le_one b
  have Bc := bitOf_le_one c
  have Bd := bitOf_le_one d
  have Be := bitOf_le_one e
  have Bf := bitOf_le_one f
  have Bg := bitOf_le_one g
  have Bh := bitOf_le_one h
  rw [packByte_sum]
  interval_cases j <;> simp [List.getD] <;> omega

theorem getD_cons8 (x0 x1 x2 x3 x4 x5 x6 x7 : Nat) (l : List Nat) (n d : Nat) :
    (x0 :: x1 :: x2 :: x3 :: x4 :: x5 :: x6 :: x7 :: l).getD (n + 8) d = l.getD n d := rfl

theorem packLoop_length : ∀ p : List Nat, (packLoop p).length = p.length / 8
  | [] => rfl
  | [_] => by simp [packLoop.eq_def]
  | [_, _] => by simp [packLoop.eq_def]
  | [_, _, _] => by simp [packLoop.eq_def]
  | [_, _, _, _] => by simp [packLoop.eq_def]
  | [_, _, _, _, _] => by simp [packLoop.eq_def]
  | [_, _, _, _, _, _] => by simp [packLoop.eq_def]
  | [_, _, _, _, _, _, _] => by simp [packLoop.eq_def]
  | a :: b :: c :: d :: e :: f :: g :: h :: rest => by
    rw [packLoop]
    simp [List.length_cons, packLoop_length rest]
    omega

theorem packLoop_getD :
    ∀ (p : List Nat) (i : Nat), i < (packLoop p).length →
      (packLoop p).getD i 0 =
        packByte [p.getD (8 * i) 0, p.getD (8 * i + 1) 0, p.getD (8 * i + 2) 0,
          p.getD (8 * i + 3) 0, p.getD (8 * i + 4) 0, p.getD (8 * i + 5) 0,
          p.getD (8 * i + 6) 0, p.getD (8 * i + 7) 0]
  | [], i, hi => by simp [packLoop] at hi
  | [_], i, hi => by simp [packLoop.eq_def] at hi
  | [_, _], i, hi => by simp [packLoop.eq_def] at hi
  | [_, _, _], i, hi => by simp [packLoop.eq_def] at hi
  | [_, _, _, _], i, hi => by simp [packLoop.eq_def] at hi
  | [_, _, _, _, _], i, hi => by simp [packLoop.eq_def] at hi
  | [_, _, _, _, _, _], i, hi => by simp [packLoop.eq_def] at hi
  | [_, _, _, _, _, _, _], i, hi => by simp [packLoop.eq_def] at hi
  | a :: b :: c :: d :: e :: f :: g :: h :: rest, 0, hi => by
    simp [packLoop, List.getD]
  | a :: b :: c :: d :: e :: f :: g :: h :: rest, i + 1, hi => by
    have hi' : i < (packLoop rest).length := by
      rw [packLoop] at hi
      simpa using hi
    have e0 : 8 * (i + 1) = 8 * i + 8 := by ring
    have e1 : 8 * (i + 1) + 1 = 8 * i + 1 + 8 := by ring
    have e2 : 8 * (i + 1) + 2 = 8 * i + 2 + 8 := by ring
    have e3 : 8 * (i + 1) + 3 = 8 * i + 3 + 8 := by ring
    have e4 : 8 * (i + 1) + 4 = 8 * i + 4 + 8 := by ring
    have e5 : 8 * (i + 1) + 5 = 8 * i + 5 + 8 := by ring
    have e6 : 8 * (i + 1) + 6 = 8 * i + 6 + 8 := by ring
    have e7 : 8 * (i + 1) + 7 = 8 * i + 7 + 8 := by ring
    rw [packLoop, List.getD_cons_succ]
    simp only [e0, e1, e2, e3, e4, e5, e6, e7, getD_cons8]
    exact packLoop_getD rest i hi'

/-- C3: compress_to_bits fails exactly when the pixel count is not divisible
by 8; on success it returns length/8 bytes, and bit (7 - j) of output byte i
(extracted as byte / 2^(7-j) mod 2) is 1 exactly when pixel 8*i + j equals
0xFF, and 0 for any other pixel value. -/
theorem claim3_pack_spec (p : List Nat) :
    (compress_to_bits p = none ↔ ¬ p.length % 8 = 0) ∧
      ∀ out, compress_to_bits p = some out →
        out.length = p.length / 8 ∧
          ∀ i, i < out.length → ∀ j, j < 8 →
            out.getD i 0 / 2 ^ (7 - j) % 2
              = (if p.getD (8 * i + j) 0 = 255 then 1 else 0) := by
  constructor
  · by_cases h8 : p.length % 8 = 0 <;> simp [compress_to_bits, h8]
  · intro out hout
    by_cases h8 : p.length % 8 = 0
    · rw [compress_to_bits, if_pos h8] at hout
      have hout' : out = packLoop p := (Option.some.injEq _ _ ▸ hout).symm
      subst hout'
      refine ⟨packLoop_length p, ?_⟩
      intro i hi j hj
      rw [packLoop_getD p i hi, packByte_div _ _ _ _ _ _ _ _ j hj]
      interval_cases j <;> simp [List.getD, bitOf]
    · rw [compress_to_bits, if_neg h8] at hout
      exact absurd hout (by simp)

/-- Witness for C3 at the all-set 8-pixel buffer: one packed byte 0xFF whose
top bit is set. -/
theorem claim3_pack_spec_witness :
    [255].length = (List.replicate 8 255).length / 8 ∧
      [255].getD 0 0 / 2 ^ (7 - 0) % 2
        = (if (List.replicate 8 255).getD (8 * 0 + 0) 0 = 255 then 1 else 0) := by
  have h := (claim3_pack_spec (List.replicate 8 255)).2 [255] (by decide)
  exact ⟨h.1, h.2 0 (by decide) 0 (by decide)⟩

/-! ## Image model, binarizer (lines 38-46) and grid detection (lines 11-36) -/

/-- A decoded grayscale image: width, height and a pixel accessor
pix x y (the PIL `pixels[x, y]`). -/
structure Img where
  w : Nat
  h : Nat
  pix : Nat → Nat → Nat

/-- One output row of binarize_image: the inner x-loop for a fixed y
(0x00 when the sample is below threshold, else 0xFF, line 45). -/
def rowPixels (img : Img) (t y : Nat) : List Nat :=
  (List.range img.w).map fun x => if img.pix x y < t then 0 else 255

/-- The outer y-loop of binarize_image, emitting rows y = 0 .. n-1 in
order. -/
def binRows (img : Img) (t : Nat) : Nat → List Nat
  | 0 => []
  | n + 1 => binRows img t n ++ rowPixels img t n

/-- binarize_image (lines 38-46): row-major scan appending 0x00 for samples
below threshold and 0xFF otherwise. -/
def binarize_image (img : Img) (t : Nat) : List Nat := binRows img t img.h

theorem rowPixels_length (img : Img) (t y : Nat) :
    (rowPixels img t y).length = img.w := by
  simp [rowPixels]

theorem binRows_length (img : Img) (t : Nat) :
    ∀ n, (binRows img t n).length = img.w * n
  | 0 => rfl
  | n + 1 => by
    rw [binRows, List.length_append, binRows_length img t n, rowPixels_length]
    ring

theorem rowPixels_getD (img : Img) (t y x : Nat) (hx : x < img.w) :
    (rowPixels img t y).getD x 0 = if img.pix x y < t then 0 else 255 := by
  have hlen : x < (rowPixels img t y).length := by
    rw [rowPixels_length]; exact hx
  rw [rowPixels] at hlen ⊢
  rw [List.getD_eq_getElem _ _ hlen, List.getElem_map, List.getElem_range]

theorem binRows_getD (img : Img) (t : Nat) :
    ∀ n x y, x < img.w → y < n →
      (binRows img t n).getD (y * img.w + x) 0 = if img.pix x y < t then 0 else 255 := by
  intro n
  induction n with
  | zero => omega
  | succ n ih =>
    intro x y hx hy
    rw [binRows]
    by_cases hyn : y < n
    · have hidx : y * img.w + x < (binRows img t n).length := by
        rw [binRows_length]
        calc y * img.w + x < y * img.w + img.w := by omega
          _ = (y + 1) * img.w := by ring
          _ ≤ n * img.w := Nat.mul_le_mul_right _ (by omega)
          _ = img.w * n := by ring
      rw [List.getD_append _ _ _ _ hidx]
      exact ih x y hx hyn
    · have hyeq : y = n := by omega
      subst hyeq
      have hge : (binRows img t y).length ≤ y * img.w + x := by
        rw [binRows_length]
        calc img.w * y = y * img.w := by ring
          _ ≤ y * img.w + x := by omega
      rw [List.getD_append_right _ _ _ _ hge]
      have hsub : y * img.w + x - (binRows img t y).length = x := by
        rw [binRows_length]
        calc y * img.w + x - img.w * y = img.w * y + x - img.w * y := by ring_nf
          _ = x := by omega
      rw [hsub]
      exact rowPixels_getD img t y x hx

theorem binRows_mem (img : Img) (t : Nat) :
    ∀ n, ∀ v ∈ binRows img t n, v = 0 ∨ v = 255 := by
  intro n
  induction n with
  | zero => intro v hv; simp [binRows] at hv
  | succ n ih =>
    intro v hv
    rw [binRows, List.mem_append] at hv
    rcases hv with h | h
    · exact ih v h
    · rw [rowPixels, List.mem_map] at h
      obtain ⟨x, -, hxv⟩ := h
      by_cases hp : img.pix x n < t <;> simp [hp] at hxv <;> omega

/-- C7: binarize_image outputs, for each sample, 0xFF when the sample is at
least the threshold and 0x00 when it is below, so every output value is
exactly 0x00 or 0xFF, and the output has one entry per input sample
(length = width * height, row-major). -/
theorem claim7_binarize (img : Img) (t : Nat) :
    (binarize_image img t).length = img.w * img.h ∧
      (∀ v ∈ binarize_image img t, v = 0 ∨ v = 255) ∧
      ∀ x y, x < img.w → y < img.h →
        (binarize_image img t).getD (y * img.w + x) 0
          = if t ≤ img.pix x y then 255 else 0 := by
  refine ⟨binRows_length img t img.h, binRows_mem img t img.h, ?_⟩
  intro x y hx hy
  rw [binarize_image, binRows_getD img t img.h x y hx hy]
  by_cases hp : img.pix x y < t
  · rw [if_pos hp, if_neg (by omega)]
  · rw [if_neg hp, if_pos (by omega)]

/-- Constant bright 1x1 image used as a concrete binarizer input. -/
def brightImg : Img := ⟨1, 1, fun _ _ => 200⟩

/-- Witness for C7 at a concrete 1x1 image with sample 200 and
threshold 128. -/
theorem claim7_binarize_witness :
    (binarize_image brightImg 128).getD (0 * brightImg.w + 0) 0
      = if 128 ≤ brightImg.pix 0 0 then 255 else 0 :=
  (claim7_binarize brightImg 128).2.2 0 0 (by decide) (by decide)

/-! ## Grid detection (detect_grid, lines 11-36) and the fallback policy
(process_image, lines 229-239) -/

/-- The vertical separators of detect_grid: columns whose every pixel is
below threshold (lines 17-20). -/
def v_seps (img : Img) (t : Nat) : List Nat :=
  (List.range img.w).filter fun x =>
    (List.range img.h).all fun y => decide (img.pix x y < t)

/-- The horizontal separators of detect_grid: rows whose every pixel is
below threshold (lines 22-26). -/
def h_seps (img : Img) (t : Nat) : List Nat :=
  (List.range img.h).filter fun y =>
    (List.range img.w).all fun x => decide (img.pix x y < t)

/-- detect_grid (lines 11-36): when both separator lists are nonempty it
returns (cols, rows, char_width, char_height); with a single separator in an
axis that axis degenerates to one cell spanning the full dimension.
Returns none only when some separator list is empty. -/
def detect_grid (img : Img) (t : Nat) : Option (Nat × Nat × Nat × Nat) :=
  let vs := v_seps img t
  let hs := h_seps img t
  if vs ≠ [] ∧ hs ≠ [] then
    some (if 1 < vs.length then vs.length - 1 else 1,
          if 1 < hs.length then hs.length - 1 else 1,
          if 1 < vs.length then vs.getD 1 0 - vs.getD 0 0 else img.w,
          if 1 < hs.length then hs.getD 1 0 - hs.getD 0 0 else img.h)
  else none

/-- The grid determination of process_image on the autodetect path
(lines 229-239): detect_grid, or on failure the fixed fallback policy
cols = 16, rows = (95 + 16 - 1) / 16, char_w = w / cols,
char_h = h / rows. -/
def gridOrFallback (img : Img) (t : Nat) : Nat × Nat × Nat × Nat :=
  match detect_grid img t with
  | some g => g
  | none => (16, (95 + 16 - 1) / 16, img.w / 16, img.h / ((95 + 16 - 1) / 16))

/-- Concrete 2x2 image with exactly one fully-dark column (x = 0) and
exactly one fully-dark row (y = 1): only the pixel (1, 0) is bright. -/
def oneSepImg : Img := ⟨2, 2, fun x y => if x = 1 ∧ y = 0 then 200 else 0⟩

/-- Counterexample to C6 as stated: this image has fewer than 2 vertical
separators and fewer than 2 horizontal separators (one of each), yet
detect_grid succeeds (cols = 1, rows = 1, cell = whole image) and the
pipeline does not fall back to the fixed 16-column policy. -/
theorem claim6_counterexample :
    (v_seps oneSepImg 128).length = 1 ∧ (h_seps oneSepImg 128).length = 1 ∧
      detect_grid oneSepImg 128 = some (1, 1, 2, 2) ∧
      detect_grid oneSepImg 128 ≠ none ∧
      gridOrFallback oneSepImg 128 ≠ (16, 6, oneSepImg.w / 16, oneSepImg.h / 6) := by
  refine ⟨by decide, by decide, by decide, by decide, by decide⟩

/-- C6 (amended): grid detection fails, and the pipeline falls back to
columns = 16, rows = ceil(95/16) = 6, cellWidth = width/16,
cellHeight = height/6, exactly when zero vertical separators or zero
horizontal separators are detected; a single separator in an axis still
counts as a successful detection. -/
theorem claim6_fallback (img : Img) (t : Nat) :
    (detect_grid img t = none ↔ (v_seps img t = [] ∨ h_seps img t = [])) ∧
      (detect_grid img t = none →
        gridOrFallback img t = (16, 6, img.w / 16, img.h / 6)) := by
  constructor
  · by_cases hv : v_seps img t = [] <;> by_cases hh2 : h_seps img t = [] <;>
      simp [detect_grid, hv, hh2]
  · intro hnone
    simp [gridOrFallback, hnone]

/-- Constant bright 1x1 image: no separators at all, so the fallback policy
applies. -/
def noSepImg : Img := ⟨1, 1, fun _ _ => 255⟩

/-- Witness for the amended C6 at a concrete separator-free image. -/
theorem claim6_fallback_witness :
    gridOrFallback noSepImg 128 = (16, 6, noSepImg.w / 16, noSepImg.h / 6) :=
  (claim6_fallback noSepImg 128).2 (by decide)

/-! ## Synthetic solid glyph injection (generate_solid_char, lines 84-95) -/

theorem getD_set_ne (l : List Nat) (idx i v d : Nat) (h : idx ≠ i) :
    (l.set idx v).getD i d = l.getD i d := by
  rw [List.getD_eq_getElem?_getD, List.getD_eq_getElem?_getD, List.getElem?_set_ne h]

theorem getD_set_self (l : List Nat) (idx v d : Nat) (h : idx < l.length) :
    (l.set idx v).getD idx d = v := by
  rw [List.getD_eq_getElem _ _ (by simpa using h)]
  simp [List.getElem_set]

/-- The inner dx-loop of generate_solid_char for a fixed row y: sets
pixel (x0 + dx, y) to 0xFF whenever it lies inside the image. -/
def solidInner (w h y x0 cw : Nat) (buf : List Nat) : List Nat :=
  (List.range cw).foldl (fun b dx =>
    if x0 + dx < w ∧ y < h then b.set (y * w + (x0 + dx)) 255 else b) buf

/-- The outer dy-loop of generate_solid_char over the rows of the cell. -/
def solidOuter (w h x0 y0 cw ch : Nat) (buf : List Nat) : List Nat :=
  (List.range ch).foldl (fun b dy => solidInner w h (y0 + dy) x0 cw b) buf

/-- generate_solid_char (lines 84-95): fills the bounding box of cell 95
(x0 = (95 mod cols) * char_w, y0 = (95 div cols) * char_h), clipped to the
image bounds, with 0xFF. -/
def generate_solid_char (pixels : List Nat) (w h cols rows char_w char_h : Nat) :
    List Nat :=
  solidOuter w h ((95 % cols) * char_w) ((95 / cols) * char_h) char_w char_h pixels

theorem solidInner_succ (w h y x0 cw : Nat) (buf : List Nat) :
    solidInner w h y x0 (cw + 1) buf =
      if x0 + cw < w ∧ y < h
      then (solidInner w h y x0 cw buf).set (y * w + (x0 + cw)) 255
      else solidInner w h y x0 cw buf := by
  rw [solidInner, List.range_succ, List.foldl_append, List.foldl_cons, List.foldl_nil]
  rfl

theorem solidInner_length (w h y x0 : Nat) :
    ∀ cw (buf : List Nat), (solidInner w h y x0 cw buf).length = buf.length := by
  intro cw
  induction cw with
  | zero => intro buf; rfl
  | succ cw ih =>
    intro buf
    rw [solidInner_succ]
    by_cases hg : x0 + cw < w ∧ y < h
    · rw [if_pos hg, List.length_set, ih]
    · rw [if_neg hg, ih]

open Classical in
theorem solidInner_getD (w h y x0 : Nat) :
    ∀ cw (buf : List Nat), buf.length = w * h → ∀ i,
      (solidInner w h y x0 cw buf).getD i 0 =
        if ∃ dx, dx < cw ∧ x0 + dx < w ∧ y < h ∧ i = y * w + (x0 + dx)
        then 255 else buf.getD i 0 := by
  intro cw
  induction cw with
  | zero =>
    intro buf hlen i
    rw [if_neg (by rintro ⟨dx, hdx, -⟩; omega)]
    rfl
  | succ cw ih =>
    intro buf hlen i
    rw [solidInner_succ]
    by_cases hg : x0 + cw < w ∧ y < h
    · rw [if_pos hg]
      by_cases hi : i = y * w + (x0 + cw)
      · have hib : y * w + (x0 + cw) < (solidInner w h y x0 cw buf).length := by
          rw [solidInner_length, hlen]
          calc y * w + (x0 + cw) < y * w + w := by omega
            _ = (y + 1) * w := by ring
            _ ≤ h * w := Nat.mul_le_mul_right _ (by omega)
            _ = w * h := by ring
        subst hi
        rw [getD_set_self _ _ _ _ hib]
        rw [if_pos ⟨cw, by omega, hg.1, hg.2, rfl⟩]
      · rw [getD_set_ne _ _ _ _ _ (fun he => hi he.symm)]
        rw [ih buf hlen i]
        by_cases hc : ∃ dx, dx < cw ∧ x0 + dx < w ∧ y < h ∧ i = y * w + (x0 + dx)
        · obtain ⟨dx, h1, h2, h3, h4⟩ := hc
          rw [if_pos ⟨dx, h1, h2, h3, h4⟩, if_pos ⟨dx, by omega, h2, h3, h4⟩]
        · rw [if_neg hc, if_neg ?_]
          rintro ⟨dx, h1, h2, h3, h4⟩
          rcases Nat.lt_succ_iff_lt_or_eq.mp h1 with h1' | h1'
          · exact hc ⟨dx, h1', h2, h3, h4⟩
          · subst h1'
            exact hi h4
    · rw [if_neg hg, ih buf hlen i]
      by_cases hc : ∃ dx, dx < cw ∧ x0 + dx < w ∧ y < h ∧ i = y * w + (x0 + dx)
      · obtain ⟨dx, h1, h2, h3, h4⟩ := hc
        rw [if_pos ⟨dx, h1, h2, h3, h4⟩, if_pos ⟨dx, by omega, h2, h3, h4⟩]
      · rw [if_neg hc, if_neg ?_]
        rintro ⟨dx, h1, h2, h3, h4⟩
        rcases Nat.lt_succ_iff_lt_or_eq.mp h1 with h1' | h1'
        · exact hc ⟨dx, h1', h2, h3, h4⟩
        · subst h1'
          exact hg ⟨h2, h3⟩

theorem solidOuter_succ (w h x0 y0 cw ch : Nat) (buf : List Nat) :
    solidOuter w h x0 y0 cw (ch + 1) buf =
      solidInner w h (y0 + ch) x0 cw (solidOuter w h x0 y0 cw ch buf) := by
  rw [solidOuter, List.range_succ, List.foldl_append, List.foldl_cons, List.foldl_nil]
  rfl

theorem solidOuter_length (w h x0 y0 cw : Nat) :
    ∀ ch (buf : List Nat), (solidOuter w h x0 y0 cw ch buf).length = buf.length := by
  intro ch
  induction ch with
  | zero => intro buf; rfl
  | succ ch ih =>
    intro buf
    rw [solidOuter_succ, solidInner_length, ih]

open Classical in
theorem solidOuter_getD (w h x0 y0 cw : Nat) :
    ∀ ch (buf : List Nat), buf.length = w * h → ∀ i,
      (solidOuter w h x0 y0 cw ch buf).getD i 0 =
        if ∃ dy, dy < ch ∧ ∃ dx, dx < cw ∧ x0 + dx < w ∧ y0 + dy < h ∧
            i = (y0 + dy) * w + (x0 + dx)
        then 255 else buf.getD i 0 := by
  intro ch
  induction ch with
  | zero =>
    intro buf hlen i
    rw [if_neg (by rintro ⟨dy, hdy, -⟩; omega)]
    rfl
  | succ ch ih =>
    intro buf hlen i
    rw [solidOuter_succ]
    have hlen' : (solidOuter w h x0 y0 cw ch buf).length = w * h := by
      rw [solidOuter_length]; exact hlen
    rw [solidInner_getD w h (y0 + ch) x0 cw _ hlen' i, ih buf hlen i]
    by_cases h1 : ∃ dx, dx < cw ∧ x0 + dx < w ∧ y0 + ch < h ∧
        i = (y0 + ch) * w + (x0 + dx)
    · obtain ⟨dx, ha, hb, hc, hd⟩ := h1
      rw [if_pos ⟨dx, ha, hb, hc, hd⟩,
          if_pos ⟨ch, by omega, dx, ha, hb, hc, hd⟩]
    · rw [if_neg h1]
      by_cases h2 : ∃ dy, dy < ch ∧ ∃ dx, dx < cw ∧ x0 + dx < w ∧ y0 + dy < h ∧
          i = (y0 + dy) * w + (x0 + dx)
      · obtain ⟨dy, ha, dx, hb, hc, hd, he⟩ := h2
        rw [if_pos ⟨dy, ha, dx, hb, hc, hd, he⟩,
            if_pos ⟨dy, by omega, dx, hb, hc, hd, he⟩]
      · rw [if_neg h2, if_neg ?_]
        rintro ⟨dy, ha, dx, hb, hc, hd, he⟩
        rcases Nat.lt_succ_iff_lt_or_eq.mp ha with ha' | ha'
        · exact h2 ⟨dy, ha', dx, hb, hc, hd, he⟩
        · subst ha'
          exact h1 ⟨dx, hb, hc, hd, he⟩

open Classical in
/-- C9: generate_solid_char preserves the buffer length, sets to 0xFF
exactly the pixels whose coordinates lie in the bounding box of cell 95
(x in [x0, x0 + char_w), y in [y0, y0 + char_h) with x0 = (95 mod cols) *
char_w, y0 = (95 div cols) * char_h) clipped to the image bounds, leaves
every other pixel unchanged, and leaves the whole buffer unchanged when the
cell lies entirely outside the image. -/
theorem claim9_solid_char (pixels : List Nat) (w h cols rows cw ch : Nat)
    (hcols : 0 < cols) (hlen : pixels.length = w * h) :
    (generate_solid_char pixels w h cols rows cw ch).length = pixels.length ∧
      (∀ i, i < pixels.length →
        (generate_solid_char pixels w h cols rows cw ch).getD i 0 =
          if ∃ x y, (95 % cols) * cw ≤ x ∧ x < (95 % cols) * cw + cw ∧
              (95 / cols) * ch ≤ y ∧ y < (95 / cols) * ch + ch ∧
              x < w ∧ y < h ∧ i = y * w + x
          then 255 else pixels.getD i 0) ∧
      ((w ≤ (95 % cols) * cw ∨ h ≤ (95 / cols) * ch) →
        generate_solid_char pixels w h cols rows cw ch = pixels) := by
  have hchar : ∀ i,
      (generate_solid_char pixels w h cols rows cw ch).getD i 0 =
        if ∃ dy, dy < ch ∧ ∃ dx, dx < cw ∧ (95 % cols) * cw + dx < w ∧
            (95 / cols) * ch + dy < h ∧
            i = ((95 / cols) * ch + dy) * w + ((95 % cols) * cw + dx)
        then 255 else pixels.getD i 0 := by
    intro i
    exact solidOuter_getD w h ((95 % cols) * cw) ((95 / cols) * ch) cw ch pixels hlen i
  have hiff : ∀ i,
      (∃ dy, dy < ch ∧ ∃ dx, dx < cw ∧ (95 % cols) * cw + dx < w ∧
          (95 / cols) * ch + dy < h ∧
          i = ((95 / cols) * ch + dy) * w + ((95 % cols) * cw + dx)) ↔
        (∃ x y, (95 % cols) * cw ≤ x ∧ x < (95 % cols) * cw + cw ∧
          (95 / cols) * ch ≤ y ∧ y < (95 / cols) * ch + ch ∧
          x < w ∧ y < h ∧ i = y * w + x) := by
    intro i
    constructor
    · rintro ⟨dy, hdy, dx, hdx, hxw, hyh, hi⟩
      exact ⟨(95 % cols) * cw + dx, (95 / cols) * ch + dy,
        by omega, by omega, by omega, by omega, hxw, hyh, hi⟩
    · rintro ⟨x, y, hx0, hxcw, hy0, hych, hxw, hyh, hi⟩
      refine ⟨y - (95 / cols) * ch, by omega, x - (95 % cols) * cw, by omega, ?_, ?_, ?_⟩
      · omega
      · omega
      · rw [show (95 / cols) * ch + (y - (95 / cols) * ch) = y from by omega,
            show (95 % cols) * cw + (x - (95 % cols) * cw) = x from by omega]
        exact hi
  refine ⟨?_, ?_, ?_⟩
  · exact solidOuter_length w h ((95 % cols) * cw) ((95 / cols) * ch) cw ch pixels
  · intro i _
    rw [hchar i, if_congr (hiff i) rfl rfl]
  · intro hout
    have hnone : ∀ i,
        (generate_solid_char pixels w h cols rows cw ch).getD i 0
          = pixels.getD i 0 := by
      intro i
      rw [hchar i, if_neg ?_]
      rintro ⟨dy, hdy, dx, hdx, hxw, hyh, -⟩
      omega
    have hle : (generate_solid_char pixels w h cols rows cw ch).length
        = pixels.length :=
      solidOuter_length w h ((95 % cols) * cw) ((95 / cols) * ch) cw ch pixels
    apply List.ext_getElem hle
    intro i hi1 hi2
    have := hnone i
    rwa [List.getD_eq_getElem _ _ hi1, List.getD_eq_getElem _ _ hi2] at this

/-- Witness for C9: a 2x2 image with a 16-column grid and 1x1 cells puts
cell 95 at x0 = 15, outside the image, so the buffer is unchanged. -/
theorem claim9_solid_char_witness :
    generate_solid_char (List.replicate 4 0) 2 2 16 6 1 1 = List.replicate 4 0 :=
  (claim9_solid_char (List.replicate 4 0) 2 2 16 6 1 1 (by decide) (by decide)).2.2
    (by decide)

/-! ## Pipeline orchestration and batch mode (main lines 197-204,
process_image lines 213-276) -/

/-- The fatal per-image error conditions of process_image: a
ZeroDivisionError while evaluating the line-241 dimension check (cell width
or height of 0), the packing assertion (pixel count not divisible by 8,
line 50) and verification failure (sys.exit(1), line 276). All three raise
out of process_image uncaught. -/
inductive PErr where
  | zeroDivision : PErr
  | invalidLength : PErr
  | verifyFailed : PErr
deriving DecidableEq

/-- Evaluation of the line-241 condition
`w % char_w != 0 or h % char_h != 0` with Python's left-to-right
short-circuit: `none` models a ZeroDivisionError (char_w = 0, or char_w
divides w and char_h = 0); otherwise `some b` where b is whether the
dimension-mismatch warning is printed (the warning has no further effect
on the pipeline). -/
def dimWarn (w h char_w char_h : Nat) : Option Bool :=
  if char_w = 0 then none
  else if w % char_w ≠ 0 then some true
  else if char_h = 0 then none
  else some (h % char_h ≠ 0)

/-- process_image (lines 213-276) on the autodetect path with the format /
output / stats / preview collaborators omitted: determine the grid
(detect_grid or fallback), evaluate the line-241 dimension check (which
raises ZeroDivisionError on a zero cell dimension and otherwise at most
prints a warning), binarize, optionally inject the solid glyph, then either
pass the raw pixels through or bit-pack and RLE-compress, and optionally
verify by decompressing (verification runs only when compression does,
line 270). Fatal conditions are returned as errors. -/
def process_image (img : Img) (t : Nat) (solid raw verify : Bool) :
    Except PErr (List Nat) :=
  let grid := gridOrFallback img t
  match dimWarn img.w img.h grid.2.2.1 grid.2.2.2 with
  | none => Except.error PErr.zeroDivision
  | some _ =>
    let pixels0 := binarize_image img t
    let pixels := if solid then
        generate_solid_char pixels0 img.w img.h grid.1 grid.2.1 grid.2.2.1 grid.2.2.2
      else pixels0
    if raw then Except.ok pixels
    else
      match compress_to_bits pixels with
      | none => Except.error PErr.invalidLength
      | some packed =>
        let compressed := rle_compress packed
        if verify then
          if decompress_and_verify compressed pixels.length = pixels then
            Except.ok compressed
          else Except.error PErr.verifyFailed
        else Except.ok compressed

/-- The batch loop of main (lines 197-204): process_image is called on each
image in order with no exception handling around it, so an error raised for
one image propagates and ends the whole run before later images are
touched. -/
def runBatch (imgs : List Img) (t : Nat) (solid raw verify : Bool) :
    Except PErr (List (List Nat)) :=
  match imgs with
  | [] => Except.ok []
  | img :: rest =>
    match process_image img t solid raw verify with
    | Except.error e => Except.error e
    | Except.ok out =>
      match runBatch rest t solid raw verify with
      | Except.error e => Except.error e
      | Except.ok outs => Except.ok (out :: outs)

/-- A 17x7 all-bright image: no separators, so the fallback grid gives
char_w = 17/16 = 1 and char_h = 7/6 = 1 (the line-241 check passes), and
the 119 binarized pixels are not divisible by 8, so compress_to_bits
raises the invalid-length assertion. -/
def badLenImg : Img := ⟨17, 7, fun _ _ => 255⟩

/-- A 16x6 all-bright image that processes successfully: the fallback grid
gives 1x1 cells, the 96 pixels pack to 12 bytes of 0xFF, and verification
succeeds. -/
def goodImg : Img := ⟨16, 6, fun _ _ => 255⟩

/-- Counterexample to C8 as stated: in a batch of two images where the
first raises a fatal error, the whole batch run terminates with that error
(the second image is never processed and contributes no output), even
though the second image processes successfully on its own. -/
theorem claim8_counterexample :
    runBatch [badLenImg, goodImg] 128 false false true
        = Except.error PErr.invalidLength ∧
      process_image goodImg 128 false false true
        = Except.ok (List.replicate 12 255) := by
  constructor <;> rfl

/-- C8 (amended): a fatal per-image error in batch mode is not isolated:
the first failing image terminates the whole batch run with its error, and
no subsequent image is processed, exactly as in single-image mode. -/
theorem claim8_batch_stops (img : Img) (rest : List Img) (t : Nat)
    (solid raw verify : Bool) (e : PErr)
    (h : process_image img t solid raw verify = Except.error e) :
    runBatch (img :: rest) t solid raw verify = Except.error e := by
  rw [runBatch, h]

/-- Witness for the amended C8: the failing 1-pixel image aborts a batch
that still has an image queued behind it. -/
theorem claim8_batch_stops_witness :
    runBatch [badLenImg, goodImg] 128 false false false
      = Except.error PErr.invalidLength :=
  claim8_batch_stops badLenImg [goodImg] 128 false false false
    PErr.invalidLength (by rfl)

end FontCompress
